import Mathlib

/-
Verification development for wikipedia-utils, file
extract_paragraphs_from_page_htmls.py.

Strings are modelled at the character level as lists of characters
(PyStr).  The external collaborators that the source calls but does not
define -- unicodedata.normalize("NFKC", .), str.isprintable,
str.isspace (which drives str.split / str.strip / the regex class \s),
and the html2text converter text_maker.handle -- are parameters of the
embedding, collected in the structure PyEnv.  Facts about the real
Python/Unicode behaviour of those parameters that proofs need are stated
as explicit hypotheses (FaithfulEnv, AsciiAgrees).  The concrete
instantiation asciiEnv fixes them on the ASCII fragment exactly as
CPython behaves there: NFKC is the identity on ASCII text, isspace
holds for the characters \x09-\x0d, \x1c-\x1f and space, and
isprintable holds exactly for \x20-\x7e.
-/

abbrev PyStr := List Char

/-- Python str.split() with no argument: maximal runs of non-whitespace
characters, with whitespace-only gaps discarded.  Implemented with an
accumulator holding the reversed current word. -/
def pySplitAux (w : Char → Bool) : PyStr → PyStr → List PyStr
  | [], acc => if acc = [] then [] else [acc.reverse]
  | c :: cs, acc =>
    if w c then
      if acc = [] then pySplitAux w cs [] else acc.reverse :: pySplitAux w cs []
    else pySplitAux w cs (c :: acc)

def pySplit (w : Char → Bool) (s : PyStr) : List PyStr :=
  pySplitAux w s []

/-- Python sep.join(xs). -/
def joinSep (sep : PyStr) : List PyStr → PyStr
  | [] => []
  | t :: ts =>
    match ts with
    | [] => t
    | _ :: _ => t ++ sep ++ joinSep sep ts

abbrev joinSpace (ws : List PyStr) : PyStr := joinSep [' '] ws

/-- Python str.strip() with no argument: remove leading and trailing
whitespace characters. -/
def pyStrip (w : Char → Bool) (s : PyStr) : PyStr :=
  ((s.dropWhile w).reverse.dropWhile w).reverse

/-- re.sub of a whitespace-run pattern with a replacement, count=1:
replace the first maximal run of whitespace characters by repl. -/
def subFirstRun (w : Char → Bool) (repl : PyStr) : PyStr → PyStr
  | [] => []
  | c :: cs => if w c then repl ++ cs.dropWhile w else c :: subFirstRun w repl cs

/-- re.sub of a whitespace-run pattern with a single space (no count):
collapse every maximal run of whitespace characters to one space. -/
def collapseWSAux (w : Char → Bool) : PyStr → Bool → PyStr
  | [], _ => []
  | c :: cs, inRun =>
    if w c then
      if inRun then collapseWSAux w cs true else ' ' :: collapseWSAux w cs true
    else c :: collapseWSAux w cs false

def collapseWS (w : Char → Bool) (s : PyStr) : PyStr :=
  collapseWSAux w s false

/-- Python str.replace(' ', ''): remove the ASCII space character only
(other whitespace characters are untouched). -/
def removeAsciiSpaces (s : PyStr) : PyStr :=
  s.filter (fun c => !(c == ' '))

/-- True when the string has two adjacent whitespace characters. -/
def hasConsecWS (w : Char → Bool) : PyStr → Bool
  | [] => false
  | [_] => false
  | a :: b :: rest => (w a && w b) || hasConsecWS w (b :: rest)

/-- The external functions the source imports but does not define. -/
structure PyEnv where
  nfkc : PyStr → PyStr
  isPrintable : Char → Bool
  isSpace : Char → Bool
  handle : PyStr → PyStr

/-- Facts that hold of the real CPython predicates: the space character
is printable and is whitespace, and every whitespace character other
than space (that is, every character of categories Zs except U+0020,
Zl, Zp, and the whitespace control characters of category Cc) is not
printable. -/
def FaithfulEnv (E : PyEnv) : Prop :=
  E.isPrintable ' ' = true ∧ E.isSpace ' ' = true ∧
    ∀ c : Char, E.isSpace c = true → c ≠ ' ' → E.isPrintable c = false

/-- Python str.isspace restricted to ASCII: \x09-\x0d, \x1c-\x1f and
the space character. -/
def pyAsciiSpace (c : Char) : Bool :=
  c == ' ' || c == '\t' || c == '\n' || c == '\x0b' || c == '\x0c' || c == '\r' ||
    c == '\x1c' || c == '\x1d' || c == '\x1e' || c == '\x1f'

/-- Python str.isprintable restricted to ASCII: exactly \x20-\x7e. -/
def pyAsciiPrintable (c : Char) : Bool :=
  decide (32 ≤ c.toNat) && decide (c.toNat ≤ 126)

/-- The environment agrees with CPython on the ASCII fragment: NFKC
fixes every ASCII string (all ASCII characters are NFKC-stable), and
the two character predicates agree with CPython's tables below 128. -/
def AsciiAgrees (E : PyEnv) : Prop :=
  (∀ s : PyStr, (∀ c ∈ s, c.toNat < 128) → E.nfkc s = s) ∧
    (∀ c : Char, c.toNat < 128 → E.isSpace c = pyAsciiSpace c) ∧
    (∀ c : Char, c.toNat < 128 → E.isPrintable c = pyAsciiPrintable c)

/-- Concrete instantiation used for evaluating the embedding on ASCII
inputs: it is exactly CPython's behaviour on such inputs.  The html2text
converter (handle) is an external renderer no claim constrains; it is
instantiated by a constant function. -/
def asciiEnv : PyEnv where
  nfkc := fun s => s
  isPrintable := pyAsciiPrintable
  isSpace := pyAsciiSpace
  handle := fun _ => []

theorem asciiEnv_agrees : AsciiAgrees asciiEnv :=
  ⟨fun _ _ => rfl, fun _ _ => rfl, fun _ _ => rfl⟩

theorem asciiEnv_faithful : FaithfulEnv asciiEnv := by
  refine ⟨by decide, by decide, ?_⟩
  intro c hc hne
  have hcs : c = ' ' ∨ c = '\t' ∨ c = '\n' ∨ c = '\x0b' ∨ c = '\x0c' ∨ c = '\r' ∨
      c = '\x1c' ∨ c = '\x1d' ∨ c = '\x1e' ∨ c = '\x1f' := by
    simpa [asciiEnv, pyAsciiSpace, or_assoc] using hc
  rcases hcs with h | h | h | h | h | h | h | h | h | h <;> subst h <;>
    first
      | exact absurd rfl hne
      | decide

/-- normalize_text (lines 49-54 of the source): NFKC normalization,
then split on whitespace and rejoin with single spaces, then drop the
non-printable characters, then strip outer whitespace. -/
def normalize_text (E : PyEnv) (s : PyStr) : PyStr :=
  pyStrip E.isSpace ((joinSpace (pySplit E.isSpace (E.nfkc s))).filter E.isPrintable)

/-- The four-step pipeline exactly as the specification words it
(section 4.4 of the spec): (1) NFKC; (2) collapse whitespace runs to
single spaces by splitting on whitespace and rejoining; (3) remove
every character that is not printable; (4) trim outer whitespace. -/
def normalizeTextSpec (E : PyEnv) (s : PyStr) : PyStr :=
  let step1 := E.nfkc s
  let step2 := joinSpace (pySplit E.isSpace step1)
  let step3 := step2.filter E.isPrintable
  let step4 := pyStrip E.isSpace step3
  step4

/-- The length filter of main (lines 154-157): a paragraph is kept when
its length is neither below min_paragraph_length nor above
max_paragraph_length. -/
def lengthFilterKeeps (minL maxL len : Nat) : Bool :=
  !decide (len < minL) && !decide (len > maxL)

/-
Lemmas about the split / join / filter / strip pipeline.
-/

def GoodWords (w : Char → Bool) (ws : List PyStr) : Prop :=
  ∀ t ∈ ws, t ≠ [] ∧ ∀ c ∈ t, w c = false

theorem pySplitAux_sound (w : Char → Bool) :
    ∀ (s acc : PyStr), (∀ c ∈ acc, w c = false) →
      ∀ t ∈ pySplitAux w s acc, t ≠ [] ∧ ∀ c ∈ t, w c = false ∧ (c ∈ s ∨ c ∈ acc) := by
  intro s
  induction s with
  | nil =>
    intro acc hacc t ht
    simp only [pySplitAux] at ht
    split at ht
    · cases ht
    · next hne =>
      rcases List.mem_singleton.mp ht with rfl
      refine ⟨by simpa using hne, ?_⟩
      intro c hc
      rw [List.mem_reverse] at hc
      exact ⟨hacc c hc, Or.inr hc⟩
  | cons a s ih =>
    intro acc hacc t ht
    simp only [pySplitAux] at ht
    by_cases hwa : w a = true
    · rw [if_pos hwa] at ht
      by_cases hae : acc = []
      · rw [if_pos hae] at ht
        obtain ⟨h1, h2⟩ := ih [] (by simp) t ht
        refine ⟨h1, fun c hc => ⟨(h2 c hc).1, ?_⟩⟩
        rcases (h2 c hc).2 with h | h
        · exact Or.inl (List.mem_cons_of_mem _ h)
        · cases h
      · rw [if_neg hae] at ht
        rcases List.mem_cons.mp ht with rfl | ht'
        · refine ⟨by simpa using hae, ?_⟩
          intro c hc
          rw [List.mem_reverse] at hc
          exact ⟨hacc c hc, Or.inr hc⟩
        · obtain ⟨h1, h2⟩ := ih [] (by simp) t ht'
          refine ⟨h1, fun c hc => ⟨(h2 c hc).1, ?_⟩⟩
          rcases (h2 c hc).2 with h | h
          · exact Or.inl (List.mem_cons_of_mem _ h)
          · cases h
    · rw [if_neg hwa] at ht
      have hacc' : ∀ c ∈ a :: acc, w c = false := by
        intro c hc
        rcases List.mem_cons.mp hc with rfl | hc'
        · simpa using hwa
        · exact hacc c hc'
      obtain ⟨h1, h2⟩ := ih (a :: acc) hacc' t ht
      refine ⟨h1, fun c hc => ⟨(h2 c hc).1, ?_⟩⟩
      rcases (h2 c hc).2 with h | h
      · exact Or.inl (List.mem_cons_of_mem _ h)
      · rcases List.mem_cons.mp h with rfl | h'
        · exact Or.inl (List.mem_cons_self _ _)
        · exact Or.inr h'

theorem pySplit_good (w : Char → Bool) (s : PyStr) : GoodWords w (pySplit w s) := by
  intro t ht
  obtain ⟨h1, h2⟩ := pySplitAux_sound w s [] (by simp) t ht
  exact ⟨h1, fun c hc => (h2 c hc).1⟩

theorem pySplit_subset (w : Char → Bool) (s : PyStr) :
    ∀ t ∈ pySplit w s, ∀ c ∈ t, c ∈ s := by
  intro t ht c hc
  obtain ⟨_, h2⟩ := pySplitAux_sound w s [] (by simp) t ht
  rcases (h2 c hc).2 with h | h
  · exact h
  · cases h

theorem mem_joinSep (sep : PyStr) :
    ∀ (ws : List PyStr) (c : Char), c ∈ joinSep sep ws → c ∈ sep ∨ ∃ t ∈ ws, c ∈ t := by
  intro ws
  induction ws with
  | nil => intro c hc; cases hc
  | cons t ts ih =>
    intro c hc
    cases ts with
    | nil => exact Or.inr ⟨t, by simp, hc⟩
    | cons u ts' =>
      have hc' : c ∈ t ++ sep ++ joinSep sep (u :: ts') := hc
      rcases List.mem_append.mp hc' with h | h
      · rcases List.mem_append.mp h with h1 | h2
        · exact Or.inr ⟨t, by simp, h1⟩
        · exact Or.inl h2
      · rcases ih c h with h1 | ⟨t', ht', hc2⟩
        · exact Or.inl h1
        · exact Or.inr ⟨t', List.mem_cons_of_mem _ ht', hc2⟩

theorem joinSpace_head_not_ws (w : Char → Bool) :
    ∀ ws, GoodWords w ws → ∀ c, (joinSpace ws).head? = some c → w c = false := by
  intro ws hg c hc
  cases ws with
  | nil => cases hc
  | cons t ts =>
    have ht := hg t (by simp)
    obtain ⟨d, t', rfl⟩ : ∃ d t', t = d :: t' := by
      cases t with
      | nil => exact absurd rfl ht.1
      | cons d t' => exact ⟨d, t', rfl⟩
    cases ts with
    | nil =>
      have : c = d := by simpa [joinSpace, joinSep] using hc.symm
      subst this
      exact ht.2 c (List.mem_cons_self _ _)
    | cons u ts' =>
      have : c = d := by simpa [joinSpace, joinSep] using hc.symm
      subst this
      exact ht.2 c (List.mem_cons_self _ _)

theorem joinSep_snoc (sep : PyStr) :
    ∀ (M : List PyStr) (x : PyStr), M ≠ [] →
      joinSep sep (M ++ [x]) = joinSep sep M ++ sep ++ x := by
  intro M
  induction M with
  | nil => intro x h; exact absurd rfl h
  | cons m M' ih =>
    intro x _
    cases M' with
    | nil => rfl
    | cons m2 M'' =>
      show m ++ sep ++ joinSep sep ((m2 :: M'') ++ [x]) =
        (m ++ sep ++ joinSep sep (m2 :: M'')) ++ sep ++ x
      rw [ih x (by simp)]
      simp [List.append_assoc]

theorem joinSpace_reverse :
    ∀ ws : List PyStr, (joinSpace ws).reverse = joinSpace ((ws.map List.reverse).reverse) := by
  intro ws
  induction ws with
  | nil => rfl
  | cons t ts ih =>
    cases ts with
    | nil => rfl
    | cons u ts' =>
      have hne : ((u :: ts').map List.reverse).reverse ≠ [] := by simp
      have hstep : (List.map List.reverse (t :: u :: ts')).reverse =
          ((u :: ts').map List.reverse).reverse ++ [t.reverse] := by simp
      show (t ++ [' '] ++ joinSep [' '] (u :: ts')).reverse =
        joinSpace ((List.map List.reverse (t :: u :: ts')).reverse)
      simp only [joinSpace]
      have ih' : List.reverse (joinSep [' '] (u :: ts')) =
          joinSep [' '] ((List.map List.reverse (u :: ts')).reverse) := ih
      rw [hstep, joinSep_snoc [' '] _ _ hne, ← ih']
      rw [List.reverse_append, List.reverse_append]
      simp [List.append_assoc]

theorem goodWords_rev (w : Char → Bool) (ws : List PyStr) (hg : GoodWords w ws) :
    GoodWords w ((ws.map List.reverse).reverse) := by
  intro t ht
  rw [List.mem_reverse, List.mem_map] at ht
  obtain ⟨u, hu, rfl⟩ := ht
  exact ⟨by simpa using (hg u hu).1, fun c hc => (hg u hu).2 c (List.mem_reverse.mp hc)⟩

theorem dropWhile_head_false (q : Char → Bool) :
    ∀ (l : PyStr) (c : Char), (l.dropWhile q).head? = some c → q c = false := by
  intro l
  induction l with
  | nil => intro c hc; cases hc
  | cons a l ih =>
    intro c hc
    rw [List.dropWhile_cons] at hc
    split at hc
    · exact ih c hc
    · next h =>
      simp only [List.head?_cons, Option.some.injEq] at hc
      subst hc
      simpa using h

theorem dropWhile_eq_self_of_head (q : Char → Bool) (l : PyStr)
    (h : ∀ c, l.head? = some c → q c = false) : l.dropWhile q = l := by
  cases l with
  | nil => rfl
  | cons a l =>
    have := h a rfl
    rw [List.dropWhile_cons]
    simp [this]

theorem exists_prepend_dropWhile (q : Char → Bool) :
    ∀ l : PyStr, ∃ t, t ++ l.dropWhile q = l := by
  intro l
  induction l with
  | nil => exact ⟨[], rfl⟩
  | cons a l ih =>
    by_cases h : q a = true
    · obtain ⟨t, ht⟩ := ih
      refine ⟨a :: t, ?_⟩
      rw [List.dropWhile_cons, if_pos h]
      simpa using ht
    · refine ⟨[], ?_⟩
      rw [List.dropWhile_cons, if_neg h]
      rfl

theorem pyStrip_joinSpace (w : Char → Bool) (ws : List PyStr) (hg : GoodWords w ws) :
    pyStrip w (joinSpace ws) = joinSpace ws := by
  have h1 : (joinSpace ws).dropWhile w = joinSpace ws :=
    dropWhile_eq_self_of_head w _ (joinSpace_head_not_ws w ws hg)
  have h2 : (joinSpace ws).reverse.dropWhile w = (joinSpace ws).reverse := by
    apply dropWhile_eq_self_of_head
    intro c hc
    rw [joinSpace_reverse] at hc
    exact joinSpace_head_not_ws w _ (goodWords_rev w ws hg) c hc
  unfold pyStrip
  rw [h1, h2, List.reverse_reverse]

theorem pySplitAux_append_word (w : Char → Bool) :
    ∀ (t rest acc : PyStr), (∀ c ∈ t, w c = false) →
      pySplitAux w (t ++ rest) acc = pySplitAux w rest (t.reverse ++ acc) := by
  intro t
  induction t with
  | nil => intro rest acc _; simp
  | cons c t' ih =>
    intro rest acc h
    have hc : w c = false := h c (List.mem_cons_self _ _)
    show pySplitAux w (c :: (t' ++ rest)) acc = _
    simp only [pySplitAux, hc]
    rw [ih rest (c :: acc) (fun d hd => h d (List.mem_cons_of_mem _ hd))]
    simp

theorem pySplit_joinSpace (w : Char → Bool) (hsp : w ' ' = true) :
    ∀ ws, GoodWords w ws → pySplit w (joinSpace ws) = ws := by
  intro ws
  induction ws with
  | nil => intro _; rfl
  | cons t ts ih =>
    intro hg
    have ht := hg t (by simp)
    cases ts with
    | nil =>
      show pySplit w t = [t]
      unfold pySplit
      calc pySplitAux w t [] = pySplitAux w (t ++ []) [] := by rw [List.append_nil]
        _ = pySplitAux w [] (t.reverse ++ []) := pySplitAux_append_word w t [] [] ht.2
        _ = [t] := by
            simp only [List.append_nil, pySplitAux]
            rw [if_neg (by simpa using ht.1)]
            simp
    | cons u ts' =>
      show pySplit w (t ++ [' '] ++ joinSep [' '] (u :: ts')) = t :: u :: ts'
      unfold pySplit
      rw [List.append_assoc, pySplitAux_append_word w t _ [] ht.2]
      simp only [List.append_nil, List.singleton_append]
      simp only [pySplitAux, hsp, if_true]
      rw [if_neg (by simpa using ht.1)]
      simp only [List.reverse_reverse]
      congr 1
      exact ih (fun x hx => hg x (List.mem_cons_of_mem _ hx))

theorem joinSpace_all_printable (E : PyEnv) (hF : FaithfulEnv E) (u : PyStr)
    (H2 : ∀ c ∈ u, E.isPrintable c = true ∨ E.isSpace c = true) :
    ∀ c ∈ joinSpace (pySplit E.isSpace u), E.isPrintable c = true := by
  intro c hc
  rcases mem_joinSep [' '] _ c hc with h | ⟨t, ht, hct⟩
  · have : c = ' ' := by simpa using h
    subst this
    exact hF.1
  · have hw : E.isSpace c = false := ((pySplit_good E.isSpace u) t ht).2 c hct
    have hu : c ∈ u := pySplit_subset E.isSpace u t ht c hct
    rcases H2 c hu with h | h
    · exact h
    · rw [h] at hw
      cases hw

/-- Under the ambient Unicode facts, when every character of the
NFKC-normalized input is printable or whitespace, the printable filter
and the final strip are both the identity, so normalize_text reduces to
collapse-and-trim. -/
theorem normalize_text_normal_form (E : PyEnv) (hF : FaithfulEnv E) (s : PyStr)
    (H2 : ∀ c ∈ E.nfkc s, E.isPrintable c = true ∨ E.isSpace c = true) :
    normalize_text E s = joinSpace (pySplit E.isSpace (E.nfkc s)) := by
  unfold normalize_text
  rw [List.filter_eq_self.mpr (joinSpace_all_printable E hF (E.nfkc s) H2)]
  exact pyStrip_joinSpace _ _ (pySplit_good _ _)

theorem hasConsecWS_word_append (w : Char → Bool) :
    ∀ (t rest : PyStr), (∀ c ∈ t, w c = false) →
      hasConsecWS w rest = false → hasConsecWS w (t ++ rest) = false := by
  intro t
  induction t with
  | nil => intro rest _ h; simpa
  | cons a t' ih =>
    intro rest h hrest
    have ha : w a = false := h a (List.mem_cons_self _ _)
    cases t' with
    | nil =>
      cases rest with
      | nil => rfl
      | cons b r =>
        show hasConsecWS w (a :: b :: r) = false
        simp only [hasConsecWS, ha, Bool.false_and, Bool.false_or]
        exact hrest
    | cons a2 t'' =>
      show hasConsecWS w (a :: a2 :: (t'' ++ rest)) = false
      simp only [hasConsecWS, ha, Bool.false_and, Bool.false_or]
      exact ih rest (fun c hc => h c (List.mem_cons_of_mem _ hc)) hrest

theorem joinSpace_noconsec (w : Char → Bool) :
    ∀ ws, GoodWords w ws → hasConsecWS w (joinSpace ws) = false := by
  intro ws
  induction ws with
  | nil => intro _; rfl
  | cons t ts ih =>
    intro hg
    have ht := hg t (by simp)
    cases ts with
    | nil =>
      show hasConsecWS w t = false
      simpa using hasConsecWS_word_append w t [] ht.2 rfl
    | cons u ts' =>
      show hasConsecWS w (t ++ [' '] ++ joinSep [' '] (u :: ts')) = false
      rw [List.append_assoc]
      apply hasConsecWS_word_append w t _ ht.2
      have hgts : GoodWords w (u :: ts') := fun x hx => hg x (List.mem_cons_of_mem _ hx)
      have hJ : hasConsecWS w (joinSep [' '] (u :: ts')) = false := ih hgts
      obtain ⟨d, J', hd⟩ : ∃ d J', joinSep [' '] (u :: ts') = d :: J' := by
        have hu := hg u (List.mem_cons_of_mem _ (List.mem_cons_self _ _))
        cases hu1 : u with
        | nil => exact absurd hu1 hu.1
        | cons v u' =>
          cases ts' with
          | nil => exact ⟨v, u', by simp [joinSep, hu1]⟩
          | cons x xs =>
            exact ⟨v, u' ++ [' '] ++ joinSep [' '] (x :: xs), by simp [joinSep, hu1]⟩
      rw [List.singleton_append, hd]
      have hwd : w d = false := by
        apply joinSpace_head_not_ws w (u :: ts') hgts
        show (joinSep [' '] (u :: ts')).head? = some d
        rw [hd]
        rfl
      show hasConsecWS w (' ' :: d :: J') = false
      simp only [hasConsecWS, hwd, Bool.and_false, Bool.false_or]
      rw [← hd]
      exact hJ

/-- The result of pyStrip never begins or ends with a whitespace
character: its first character and the first character of its reversal
both fail the whitespace predicate. -/
theorem pyStrip_no_outer_ws (w : Char → Bool) (y : PyStr) :
    (∀ c, (pyStrip w y).head? = some c → w c = false) ∧
      (∀ c, (pyStrip w y).reverse.head? = some c → w c = false) := by
  constructor
  · intro c hc
    obtain ⟨t, htp⟩ := exists_prepend_dropWhile w (y.dropWhile w).reverse
    have hdecomp : pyStrip w y ++ t.reverse = y.dropWhile w := by
      have h2 := congrArg List.reverse htp
      rw [List.reverse_append, List.reverse_reverse] at h2
      exact h2
    have hhead : (y.dropWhile w).head? = some c := by
      cases hr2 : pyStrip w y with
      | nil => rw [hr2] at hc; cases hc
      | cons c0 r' =>
        rw [hr2] at hc
        simp only [List.head?_cons, Option.some.injEq] at hc
        subst hc
        rw [← hdecomp, hr2]
        rfl
    exact dropWhile_head_false w y c hhead
  · intro c hc
    have hrr : (pyStrip w y).reverse = (y.dropWhile w).reverse.dropWhile w := by
      unfold pyStrip
      rw [List.reverse_reverse]
    rw [hrr] at hc
    exact dropWhile_head_false w _ c hc

/-
The HTML tree model.  A parsed document is a tree of element nodes
(tag name, class attribute values, children) and text nodes.  The
BeautifulSoup operations the source uses are modelled on this tree:
find / find_all search all descendants in document (pre-)order,
get_text(sep) joins the text nodes of the subtree with sep, .text joins
them with the empty separator, clear() empties a tag in place, and
find_next_sibling walks the later siblings of a node.
-/

inductive HNode where
  | elem (name : String) (classes : List String) (children : List HNode)
  | textNode (s : PyStr)

def nodeName : HNode → String
  | .elem n _ _ => n
  | .textNode _ => ""

/-- Tag truthiness in BeautifulSoup: a Tag has a length (its number of
contents), so an element with no children is falsy; the source uses it
on line 98 (if tag and tag.name == 'table'). -/
def nodeTruthy : HNode → Bool
  | .elem _ _ cs => !cs.isEmpty
  | .textNode s => !s.isEmpty

mutual
def strings : HNode → List PyStr
  | .textNode s => [s]
  | .elem _ _ cs => stringsList cs
def stringsList : List HNode → List PyStr
  | [] => []
  | n :: ns => strings n ++ stringsList ns
end

def flattenStrs : List PyStr → PyStr
  | [] => []
  | s :: ss => s ++ flattenStrs ss

/-- BeautifulSoup get_text() / the .text property: concatenation of all
text nodes of the subtree, in document order. -/
def nodeText (n : HNode) : PyStr :=
  flattenStrs (strings n)

/-- BeautifulSoup get_text(separator=' '). -/
def getTextSpaceSep (n : HNode) : PyStr :=
  joinSep [' '] (strings n)

mutual
def findAll (names : List String) : HNode → List HNode
  | .textNode _ => []
  | .elem _ _ cs => findAllList names cs
def findAllList (names : List String) : List HNode → List HNode
  | [] => []
  | n :: ns =>
    (match n with
     | .elem nm _ _ => if names.contains nm then [n] else []
     | .textNode _ => []) ++ findAll names n ++ findAllList names ns
end

/- soup.find(["section"]) followed by the find_next_sibling chain: the
first descendant section element in document order, together with the
later siblings among which find_next_sibling will look. -/
mutual
def findSec : HNode → Option (HNode × List HNode)
  | .textNode _ => none
  | .elem _ _ cs => findSecList cs
def findSecList : List HNode → Option (HNode × List HNode)
  | [] => none
  | n :: ns =>
    if nodeName n == "section" then some (n, ns)
    else
      match findSec n with
      | some r => some r
      | none => findSecList ns
end

/-- A removal rule of tags_to_remove: either a bare tag name, or a tag
name plus a class-attribute string (BeautifulSoup matches the string
against any single class value or against the full joined class
attribute). -/
inductive TagSpec where
  | byName (name : String)
  | byNameClass (name : String) (cls : String)

def matchSpec (sp : TagSpec) (nm : String) (classes : List String) : Bool :=
  match sp with
  | .byName n => nm == n
  | .byNameClass n c => nm == n && (classes.contains c || String.intercalate " " classes == c)

/- find_all on one removal spec followed by clear() on every match:
every matching element keeps its tag but loses its contents. -/
mutual
def clearSpec (sp : TagSpec) : HNode → HNode
  | .textNode s => .textNode s
  | .elem nm cls cs =>
    if matchSpec sp nm cls then .elem nm cls [] else .elem nm cls (clearSpecList sp cs)
def clearSpecList (sp : TagSpec) : List HNode → List HNode
  | [] => []
  | n :: ns => clearSpec sp n :: clearSpecList sp ns
end

/-- Lines 86-92 of the source: the removal specs applied in sequence. -/
def applyRemovals (specs : List TagSpec) (n : HNode) : HNode :=
  specs.foldl (fun acc sp => clearSpec sp acc) n

/- Lines 95-96: find_all over a list of inner tag names, then clear()
on every match. -/
mutual
def clearByNames (names : List String) : HNode → HNode
  | .textNode s => .textNode s
  | .elem nm cls cs =>
    if names.contains nm then .elem nm cls [] else .elem nm cls (clearByNamesList names cs)
def clearByNamesList (names : List String) : List HNode → List HNode
  | [] => []
  | n :: ns => clearByNames names n :: clearByNamesList names ns
end

/- normalize_table_text (lines 56-61): every th/td cell's contents are
replaced by the single string obtained by NFKC-normalizing the cell's
space-separated text and collapsing its whitespace. -/
mutual
def normTableCells (E : PyEnv) : HNode → HNode
  | .textNode s => .textNode s
  | .elem nm cls cs =>
    if nm == "th" || nm == "td" then
      .elem nm cls [.textNode (joinSpace (pySplit E.isSpace (E.nfkc (joinSep [' '] (stringsList cs)))))]
    else .elem nm cls (normTableCellsList E cs)
def normTableCellsList (E : PyEnv) : List HNode → List HNode
  | [] => []
  | n :: ns => normTableCells E n :: normTableCellsList E ns
end

/- str(tag): serialize the (normalized) table subtree back to markup,
which the source then hands to the html2text converter. -/
mutual
def htmlStr : HNode → PyStr
  | .textNode s => s
  | .elem nm cls cs =>
    ('<' :: nm.data) ++
      (if cls.isEmpty then [] else (" class=\"" ++ String.intercalate " " cls ++ "\"").data) ++
      ['>'] ++ htmlStrList cs ++ ('<' :: '/' :: nm.data) ++ ['>']
def htmlStrList : List HNode → PyStr
  | [] => []
  | n :: ns => htmlStr n ++ htmlStrList ns
end

/-- Exceptions: a computation either returns a value or raises (the
source can raise IndexError from row[0] / row[1]). -/
inductive PyExcept (α : Type) where
  | ok (val : α)
  | raised
deriving DecidableEq

/-- Line 66: td.get_text(separator=' ').replace('*','').strip(). -/
def cellText (E : PyEnv) (cell : HNode) : PyStr :=
  pyStrip E.isSpace ((joinSep [' '] (strings cell)).filter (fun c => !(c == '*')))

def parentKeywords : List PyStr := ["父 ".data, "母 ".data, "父の".data, "母の".data]

def gen5Keyword : PyStr := "5代内".data

def maternalKeyword : PyStr := "母系".data

def startsWithAny (ks : List PyStr) (s : PyStr) : Bool :=
  ks.any (fun k => k.isPrefixOf s)

/-- Lines 67-75: classify one pedigree-table row by the prefix of its
first cell.  Accessing row[0] of an empty row, or row[1] of a
one-cell row in the second branch, raises. -/
def classifyRow (E : PyEnv) : List PyStr → PyExcept (Option PyStr)
  | [] => .raised
  | r0 :: rest =>
    if startsWithAny parentKeywords r0 then
      .ok (some (joinSep " - ".data (subFirstRun E.isSpace ": ".data r0 :: rest)))
    else if startsWithAny [gen5Keyword] r0 then
      match rest with
      | [] => .raised
      | r1 :: rest2 =>
        .ok (some (joinSep ": ".data (removeAsciiSpaces r0 :: collapseWS E.isSpace r1 :: rest2)))
    else if startsWithAny [maternalKeyword] r0 then
      .ok (some (joinSep ": ".data (r0 :: rest)))
    else .ok none

def processRows (E : PyEnv) : List (List PyStr) → PyExcept (List PyStr)
  | [] => .ok []
  | r :: rs =>
    match classifyRow E r with
    | .raised => .raised
    | .ok o =>
      match processRows E rs with
      | .raised => .raised
      | .ok l => .ok (match o with | some s => s :: l | none => l)

def bloodRows (E : PyEnv) (t : HNode) : List (List PyStr) :=
  (findAll ["tr"] t).map (fun tr => (findAll ["td", "th"] tr).map (cellText E))

/-- normalize_blood_table_text (lines 63-76): classify every tr row of
the table, join the retained rows with newlines and NFKC-normalize the
block. -/
def normalize_blood_table_text (E : PyEnv) (t : HNode) : PyExcept PyStr :=
  match processRows E (bloodRows E t) with
  | .raised => .raised
  | .ok lst => .ok (E.nfkc (joinSep ['\n'] lst))

def leadTitle : PyStr := "__LEAD__".data

def bloodSectionTitle : PyStr := "血統表".data

/-- Lines 83-84: if the section has an h2 descendant, the current title
becomes that heading's raw .text; otherwise the previous title is
kept. -/
def updateTitle (title : PyStr) (sec : HNode) : PyStr :=
  match (findAll ["h2"] sec).head? with
  | some h => nodeText h
  | none => title

structure WalkCfg where
  tagsToExtract : List String
  tagsToRemove : List TagSpec
  innerTagsToRemove : List String

abbrev Triple := PyStr × PyStr × String

/-- Lines 94-109: one extracted tag.  Inner noise tags are cleared,
then a truthy table dispatches on the pedigree section title, and any
other tag goes through normalize_text on its concatenated text. -/
def processTag (E : PyEnv) (cfg : WalkCfg) (title : PyStr) (tag : HNode) : PyExcept Triple :=
  let tag2 := clearByNames cfg.innerTagsToRemove tag
  if nodeTruthy tag2 && (nodeName tag2 == "table") then
    if title = bloodSectionTitle then
      match normalize_blood_table_text E tag2 with
      | .ok s => .ok (title, s, nodeName tag2)
      | .raised => .raised
    else .ok (title, E.handle (htmlStr (normTableCells E tag2)), nodeName tag2)
  else .ok (title, normalize_text E (nodeText tag2), nodeName tag2)

def processTags (E : PyEnv) (cfg : WalkCfg) (title : PyStr) : List HNode → PyExcept (List Triple)
  | [] => .ok []
  | t :: ts =>
    match processTag E cfg title t with
    | .raised => .raised
    | .ok tr =>
      match processTags E cfg title ts with
      | .raised => .raised
      | .ok l => .ok (tr :: l)

/-- Lines 82-109, one iteration of the while loop: update the title
from the section's h2, clear the removal specs in place, then process
every descendant matching the extractable tag names in document
order. -/
def processSection (E : PyEnv) (cfg : WalkCfg) (title : PyStr) (sec : HNode) :
    PyExcept (PyStr × List Triple) :=
  let title2 := updateTitle title sec
  let sec2 := applyRemovals cfg.tagsToRemove sec
  match processTags E cfg title2 (findAll cfg.tagsToExtract sec2) with
  | .raised => .raised
  | .ok items => .ok (title2, items)

def walkSections (E : PyEnv) (cfg : WalkCfg) : PyStr → List HNode → PyExcept (List Triple)
  | _, [] => .ok []
  | title, sec :: rest =>
    match processSection E cfg title sec with
    | .raised => .raised
    | .ok (title2, items) =>
      match walkSections E cfg title2 rest with
      | .raised => .raised
      | .ok more => .ok (items ++ more)

def isSectionNode (n : HNode) : Bool :=
  nodeName n == "section"

/-- extract_paragraphs_from_html (lines 78-111): start from the first
section found anywhere in the document, then repeatedly advance to the
next sibling named section. -/
def extract_paragraphs_from_html (E : PyEnv) (cfg : WalkCfg) (doc : HNode) :
    PyExcept (List Triple) :=
  match findSec doc with
  | none => .ok []
  | some (sec, following) =>
    walkSections E cfg leadTitle (sec :: following.filter isSectionNode)

def DEFAULT_TAGS_TO_EXTRACT : List String := ["p", "dd", "table", "blockquote"]

def DEFAULT_TAGS_TO_REMOVE : List TagSpec :=
  [.byNameClass "div" "hatnote dablink noprint",
   .byNameClass "table" "box-馬齢新",
   .byNameClass "table" "box-馬齢旧",
   .byNameClass "table" "box-現役競走馬",
   .byNameClass "table" "infobox",
   .byNameClass "table" "navbox",
   .byNameClass "div" "navbox"]

def DEFAULT_INNER_TAGS_TO_REMOVE : List String := ["sup"]

def DEFAULT_SECTIONS_TO_IGNORE : List PyStr :=
  ["脚注".data, "出典".data, "参考文献".data, "関連項目".data, "外部リンク".data]

def defaultCfg : WalkCfg :=
  ⟨DEFAULT_TAGS_TO_EXTRACT, DEFAULT_TAGS_TO_REMOVE, DEFAULT_INNER_TAGS_TO_REMOVE⟩

/-- The filter chain of main (lines 152-157): a triple survives when
its section is not ignored and its text length is within the bounds. -/
def keptParagraphs (minL maxL : Nat) (ignore : List PyStr) (items : List Triple) : List Triple :=
  items.filter (fun it => !ignore.contains it.1 && lengthFilterKeeps minL maxL it.2.1.length)

/-- Projection of the walker's output, keeping part of each triple. -/
def pexMap (f : Triple → PyStr × String) : PyExcept (List Triple) → PyExcept (List (PyStr × String))
  | .ok l => .ok (l.map f)
  | .raised => .raised

def pexTitles : PyExcept (List Triple) → PyExcept (List PyStr)
  | .ok l => .ok (l.map (fun tr => tr.1))
  | .raised => .raised

/-
Lemmas about the pedigree-table parser.
-/

theorem processRows_raised_of_empty_row (E : PyEnv) :
    ∀ rows : List (List PyStr), (∃ r ∈ rows, r = []) → processRows E rows = .raised := by
  intro rows
  induction rows with
  | nil =>
    rintro ⟨r, hr, _⟩
    cases hr
  | cons a rs ih =>
    rintro ⟨r, hr, hre⟩
    rcases List.mem_cons.mp hr with rfl | hr'
    · subst hre
      rfl
    · have hrec := ih ⟨r, hr', hre⟩
      cases hca : classifyRow E a with
      | raised => simp [processRows, hca]
      | ok o => simp [processRows, hca, hrec]

/-
Concrete documents and inputs used by the claims.
-/

/-- A document whose single section holds a table with a paragraph
nested inside a table cell. -/
def nestedDoc (inner : PyStr) : HNode :=
  .elem "html" []
    [.elem "body" []
      [.elem "section" []
        [.elem "table" []
          [.elem "tr" []
            [.elem "td" []
              [.elem "p" [] [.textNode inner]]]]]]]

/-- A document with a lead section (no heading) and two headed
sections, one extractable paragraph in each. -/
def headingsDoc : HNode :=
  .elem "html" []
    [.elem "body" []
      [.elem "section" [] [.elem "p" [] [.textNode "lead paragraph".data]],
       .elem "section" []
         [.elem "h2" [] [.textNode "H1".data],
          .elem "p" [] [.textNode "second paragraph".data]],
       .elem "section" []
         [.elem "h2" [] [.textNode "H2".data],
          .elem "p" [] [.textNode "third paragraph".data]]]]

def rawTitleH2 : HNode := .elem "h2" [] [.textNode "A  B".data]

def rawTitleSec : HNode :=
  .elem "section" [] [rawTitleH2, .elem "p" [] [.textNode "hello there".data]]

def rawTitleDoc : HNode := .elem "html" [] [.elem "body" [] [rawTitleSec]]

def noHeadingSec : HNode := .elem "section" [] [.elem "p" [] [.textNode "x".data]]

def c9tr : HNode := .elem "tr" [] []

def c9tbl : HNode := .elem "table" [] [c9tr]

def c10tbl : HNode :=
  .elem "table" [] [.elem "tr" [] [.elem "td" [] [.textNode "5代内X".data]]]

def c4input : PyStr := "a \t\n  \x01 \t\n  b".data

def c5input : PyStr := "a \x01 b".data

/-
The claims.
-/

/-- C1: for every input string, normalize_text computes exactly the
four-step pipeline of the specification, in order: NFKC normalization,
whitespace collapse by splitting on whitespace and rejoining with
single spaces, removal of every non-printable character, and a final
trim of outer whitespace. -/
theorem c1_normalize_text_is_spec_pipeline :
    ∀ (E : PyEnv) (s : PyStr), normalize_text E s = normalizeTextSpec E s :=
  fun _ _ => rfl

/-- C2 counterexample: with the default configuration (minimum 10,
maximum 1000) a paragraph of exactly min_paragraph_length characters is
KEPT by the code, while the claim says it is dropped; the lower bound
is inclusive, not exclusive. -/
theorem c2_counterexample :
    lengthFilterKeeps 10 1000 10 = true ∧
      keptParagraphs 10 1000 DEFAULT_SECTIONS_TO_IGNORE
          [(leadTitle, "aaaaaaaaaa".data, "p")] =
        [(leadTitle, "aaaaaaaaaa".data, "p")] := by
  decide

/-- C2 amended: the minimum is an inclusive lower bound and the maximum
an inclusive upper bound: a paragraph of exactly min_paragraph_length
characters is kept, one of min_paragraph_length - 1 characters is
dropped, one of exactly max_paragraph_length characters is kept, and
one of max_paragraph_length + 1 characters is dropped. -/
theorem c2_length_filter_amended (minL maxL : Nat) (h1 : 0 < minL) (h2 : minL ≤ maxL) :
    lengthFilterKeeps minL maxL minL = true ∧
      lengthFilterKeeps minL maxL (minL - 1) = false ∧
      lengthFilterKeeps minL maxL maxL = true ∧
      lengthFilterKeeps minL maxL (maxL + 1) = false := by
  unfold lengthFilterKeeps
  refine ⟨?_, ?_, ?_, ?_⟩ <;> simp <;> omega

/-- C2 witness: the amended bounds at the default configuration. -/
theorem c2_length_filter_amended_witness :
    lengthFilterKeeps 10 1000 10 = true ∧
      lengthFilterKeeps 10 1000 9 = false ∧
      lengthFilterKeeps 10 1000 1000 = true ∧
      lengthFilterKeeps 10 1000 1001 = false :=
  c2_length_filter_amended 10 1000 (by decide) (by decide)

/-- C3 counterexample: in a document whose section holds a table with a
paragraph nested inside a table cell, the walker yields the nested
paragraph as its own separate (section title, text, tag kind) triple in
addition to the table triple, contradicting the claim that nested
extractable tags are never separately yielded. -/
theorem c3_counterexample :
    extract_paragraphs_from_html asciiEnv defaultCfg (nestedDoc "inner paragraph text".data) =
        .ok [(leadTitle, [], "table"), (leadTitle, "inner paragraph text".data, "p")] ∧
      pexMap (fun tr => (tr.1, tr.2.2))
          (extract_paragraphs_from_html asciiEnv defaultCfg (nestedDoc "inner paragraph text".data)) =
        .ok [(leadTitle, "table"), (leadTitle, "p")] := by
  decide

set_option maxHeartbeats 1000000 in
/-- C3 amended: find_all matches every descendant, so an extractable
tag nested inside another extracted extractable tag IS also separately
yielded by the walker (for any environment and any nested paragraph
text, the nested-table document yields both a table triple and a
separate paragraph triple, in document order). -/
theorem c3_nested_tags_amended :
    ∀ (E : PyEnv) (inner : PyStr),
      pexMap (fun tr => (tr.1, tr.2.2))
          (extract_paragraphs_from_html E defaultCfg (nestedDoc inner)) =
        .ok [(leadTitle, "table"), (leadTitle, "p")] :=
  fun _ _ => rfl

/-- C4 counterexample: an input with tabs, newlines and multiple
spaces, which also holds the non-printable non-whitespace character
U+0001, normalizes to a string with two consecutive whitespace
characters: the split step keeps "\x01" as a word, the printable filter
then deletes it, leaving the two spaces around it adjacent. -/
theorem c4_counterexample :
    normalize_text asciiEnv c4input = "a  b".data ∧
      hasConsecWS asciiEnv.isSpace (normalize_text asciiEnv c4input) = true ∧
      ('\t' ∈ c4input ∧ '\n' ∈ c4input ∧ hasConsecWS (fun c => c == ' ') c4input = true) := by
  decide

/-- C4 amended: for every input the output of normalize_text has no
leading and no trailing whitespace; and when every character of the
NFKC-normalized input is printable or whitespace, the output also has
no two consecutive whitespace characters.  (The unrestricted
no-consecutive-whitespace claim fails when a word consists only of
non-printable characters.) -/
theorem c4_whitespace_amended (E : PyEnv) (s : PyStr) :
    ((∀ c, (normalize_text E s).head? = some c → E.isSpace c = false) ∧
        (∀ c, (normalize_text E s).reverse.head? = some c → E.isSpace c = false)) ∧
      (FaithfulEnv E → (∀ c ∈ E.nfkc s, E.isPrintable c = true ∨ E.isSpace c = true) →
        hasConsecWS E.isSpace (normalize_text E s) = false) := by
  constructor
  · exact pyStrip_no_outer_ws E.isSpace _
  · intro hF H2
    rw [normalize_text_normal_form E hF s H2]
    exact joinSpace_noconsec _ _ (pySplit_good _ _)

/-- C4 witness: the amended no-consecutive-whitespace conclusion at a
concrete mixed-whitespace ASCII input. -/
theorem c4_whitespace_amended_witness :
    hasConsecWS asciiEnv.isSpace (normalize_text asciiEnv "a \t\n  b".data) = false :=
  (c4_whitespace_amended asciiEnv "a \t\n  b".data).2 asciiEnv_faithful (by decide)

/-- C5 counterexample: normalize_text is not idempotent: on
"a \x01 b" one application yields "a  b" (with two spaces), and a
second application collapses them to "a b". -/
theorem c5_counterexample :
    normalize_text asciiEnv c5input = "a  b".data ∧
      normalize_text asciiEnv (normalize_text asciiEnv c5input) = "a b".data ∧
      normalize_text asciiEnv (normalize_text asciiEnv c5input) ≠ normalize_text asciiEnv c5input := by
  decide

/-- C5 amended: normalize_text is idempotent on every input whose
NFKC-normalized form consists of printable-or-whitespace characters
only, provided NFKC also fixes the first application's output (both
conditions fail in general: the printable filter can merge whitespace
runs, and deleting characters can create new NFKC compositions). -/
theorem c5_idempotence_amended (E : PyEnv) (s : PyStr) (hF : FaithfulEnv E)
    (H2 : ∀ c ∈ E.nfkc s, E.isPrintable c = true ∨ E.isSpace c = true)
    (H1 : E.nfkc (normalize_text E s) = normalize_text E s) :
    normalize_text E (normalize_text E s) = normalize_text E s := by
  have hnf : normalize_text E s = joinSpace (pySplit E.isSpace (E.nfkc s)) :=
    normalize_text_normal_form E hF s H2
  have hGood : GoodWords E.isSpace (pySplit E.isSpace (E.nfkc s)) := pySplit_good _ _
  have hsplit2 : pySplit E.isSpace (normalize_text E s) = pySplit E.isSpace (E.nfkc s) := by
    rw [hnf]
    exact pySplit_joinSpace E.isSpace hF.2.1 _ hGood
  show pyStrip E.isSpace
      ((joinSpace (pySplit E.isSpace (E.nfkc (normalize_text E s)))).filter E.isPrintable) =
    normalize_text E s
  rw [H1, hsplit2, List.filter_eq_self.mpr (joinSpace_all_printable E hF (E.nfkc s) H2),
    pyStrip_joinSpace _ _ hGood, hnf]

/-- C5 witness: idempotence at a concrete ASCII input satisfying both
side conditions. -/
theorem c5_idempotence_amended_witness :
    normalize_text asciiEnv (normalize_text asciiEnv "a \t b".data) =
      normalize_text asciiEnv "a \t b".data :=
  c5_idempotence_amended asciiEnv "a \t b".data asciiEnv_faithful (by decide) rfl

/-- C6: the walker starts from the sentinel title __LEAD__; on a
document with headings H1, H2 and three paragraphs (one before H1, one
between H1 and H2, one after H2) the yielded triples carry the titles
__LEAD__, H1, H2 respectively; and a section without its own h2 heading
retains the title of the preceding section. -/
theorem c6_section_titles :
    (∀ E : PyEnv,
        pexTitles (extract_paragraphs_from_html E defaultCfg headingsDoc) =
          .ok [leadTitle, "H1".data, "H2".data]) ∧
      (∀ (t : PyStr) (sec : HNode), findAll ["h2"] sec = [] → updateTitle t sec = t) := by
  constructor
  · intro E
    rfl
  · intro t sec h
    unfold updateTitle
    rw [h]
    rfl

/-- C6 witness: title retention at a concrete heading-less section. -/
theorem c6_section_titles_witness :
    updateTitle "Prev".data noHeadingSec = "Prev".data :=
  c6_section_titles.2 "Prev".data noHeadingSec rfl

/-- C7 counterexample: a section whose h2 heading text holds a double
space produces the section title "A  B" verbatim: the title is NOT
whitespace-joined (which would give "A B"), it is the heading's raw
.text. -/
theorem c7_counterexample :
    pexTitles (extract_paragraphs_from_html asciiEnv defaultCfg rawTitleDoc) =
        .ok ["A  B".data] ∧
      joinSpace (pySplit asciiEnv.isSpace "A  B".data) = "A B".data ∧
      ("A  B".data : PyStr) ≠ "A B".data := by
  decide

/-- C7 amended: when a section has an h2 descendant the current title
is set to that heading's raw concatenated text, with no whitespace
processing at all; when it has none the previous title is retained. -/
theorem c7_title_raw_amended :
    (∀ (t : PyStr) (sec h : HNode) (hs : List HNode),
        findAll ["h2"] sec = h :: hs → updateTitle t sec = nodeText h) ∧
      (∀ (t : PyStr) (sec : HNode), findAll ["h2"] sec = [] → updateTitle t sec = t) := by
  constructor
  · intro t sec h hs hfa
    unfold updateTitle
    rw [hfa]
    rfl
  · intro t sec hfa
    unfold updateTitle
    rw [hfa]
    rfl

/-- C7 witness: the raw double-spaced heading text becomes the title. -/
theorem c7_title_raw_amended_witness :
    updateTitle leadTitle rawTitleSec = nodeText rawTitleH2 :=
  c7_title_raw_amended.1 leadTitle rawTitleSec rawTitleH2 [] rfl

/-- C8 counterexample: in the "within five generations" branch only the
ASCII space character is removed from the first cell, not all
whitespace: a first cell holding a tab keeps it, so the row
["5代内\tA", "x"] is retained as "5代内\tA: x" and not as the
claim's fully whitespace-free "5代内A: x". -/
theorem c8_counterexample :
    classifyRow asciiEnv ["5代内\tA".data, "x".data] = .ok (some "5代内\tA: x".data) ∧
      ('\t' ∈ ("5代内\tA: x".data : PyStr)) ∧
      ("5代内\tA: x".data : PyStr) ≠ "5代内A: x".data := by
  decide

/-- C8 amended: pedigree row classification, with two corrections: in
the five-generations branch only ASCII space characters are removed
from the first cell (other whitespace stays), and ALL cells of the row
are joined with ": " (not only the first two).  (i) a first cell with a
parent-relation prefix has its first whitespace run replaced by ": "
and the row is joined with " - "; (ii) a five-generations row has
spaces removed from the first cell, whitespace runs of the second cell
collapsed, and the cells joined with ": "; (iii) a maternal-line row is
joined with ": "; (iv) any other row is silently dropped; and the
concrete examples evaluate accordingly. -/
theorem c8_pedigree_rows_amended :
    (∀ (E : PyEnv) (r0 : PyStr) (rest : List PyStr),
        startsWithAny parentKeywords r0 = true →
          classifyRow E (r0 :: rest) =
            .ok (some (joinSep " - ".data (subFirstRun E.isSpace ": ".data r0 :: rest)))) ∧
      (∀ (E : PyEnv) (r0 r1 : PyStr) (rest : List PyStr),
        startsWithAny parentKeywords r0 = false → startsWithAny [gen5Keyword] r0 = true →
          classifyRow E (r0 :: r1 :: rest) =
            .ok (some (joinSep ": ".data
              (removeAsciiSpaces r0 :: collapseWS E.isSpace r1 :: rest)))) ∧
      (∀ (E : PyEnv) (r0 : PyStr) (rest : List PyStr),
        startsWithAny parentKeywords r0 = false → startsWithAny [gen5Keyword] r0 = false →
          startsWithAny [maternalKeyword] r0 = true →
          classifyRow E (r0 :: rest) = .ok (some (joinSep ": ".data (r0 :: rest)))) ∧
      (∀ (E : PyEnv) (r0 : PyStr) (rest : List PyStr),
        startsWithAny parentKeywords r0 = false → startsWithAny [gen5Keyword] r0 = false →
          startsWithAny [maternalKeyword] r0 = false →
          classifyRow E (r0 :: rest) = .ok none) ∧
      (classifyRow asciiEnv ["父 A".data, "x".data] = .ok (some "父: A - x".data) ∧
        classifyRow asciiEnv ["5代内 血量".data, "a b  c".data] =
          .ok (some "5代内血量: a b c".data) ∧
        classifyRow asciiEnv ["無関係".data, "x".data] = .ok none) := by
  refine ⟨?_, ?_, ?_, ?_, by decide⟩
  · intro E r0 rest h1
    simp [classifyRow, h1]
  · intro E r0 r1 rest h1 h2
    simp [classifyRow, h1, h2]
  · intro E r0 rest h1 h2 h3
    simp [classifyRow, h1, h2, h3]
  · intro E r0 rest h1 h2 h3
    simp [classifyRow, h1, h2, h3]

/-- C8 witness: the parent-relation branch at a concrete row. -/
theorem c8_pedigree_rows_amended_witness :
    classifyRow asciiEnv ["母 B".data, "y".data] =
      .ok (some (joinSep " - ".data
        (subFirstRun asciiEnv.isSpace ": ".data "母 B".data :: ["y".data]))) :=
  c8_pedigree_rows_amended.1 asciiEnv "母 B".data ["y".data] (by decide)

/-- C9: the pedigree parser raises on a structurally impossible row (a
table with a row of zero cells makes it raise), while recoverable shape
mismatches never raise: a row whose first cell matches no recognized
prefix is silently dropped, and a section with a missing heading simply
retains the previous title. -/
theorem c9_error_policy :
    (∀ (E : PyEnv) (t : HNode),
        (∃ tr ∈ findAll ["tr"] t, findAll ["td", "th"] tr = []) →
          normalize_blood_table_text E t = .raised) ∧
      (∀ (E : PyEnv) (r0 : PyStr) (rest : List PyStr),
        startsWithAny parentKeywords r0 = false → startsWithAny [gen5Keyword] r0 = false →
          startsWithAny [maternalKeyword] r0 = false →
          classifyRow E (r0 :: rest) = .ok none) ∧
      (∀ (t : PyStr) (sec : HNode), findAll ["h2"] sec = [] → updateTitle t sec = t) := by
  refine ⟨?_, ?_, ?_⟩
  · rintro E t ⟨tr, htr, hcells⟩
    have h2 : (fun tr => (findAll ["td", "th"] tr).map (cellText E)) tr = [] := by
      simp [hcells]
    have hmem : ([] : List PyStr) ∈ bloodRows E t := by
      unfold bloodRows
      exact h2 ▸ List.mem_map_of_mem _ htr
    unfold normalize_blood_table_text
    rw [processRows_raised_of_empty_row E _ ⟨[], hmem, rfl⟩]
  · intro E r0 rest h1 h2 h3
    simp [classifyRow, h1, h2, h3]
  · intro t sec h
    unfold updateTitle
    rw [h]
    rfl

/-- C9 witness: a concrete table with a zero-cell row raises. -/
theorem c9_error_policy_witness :
    normalize_blood_table_text asciiEnv c9tbl = .raised :=
  c9_error_policy.1 asciiEnv c9tbl ⟨c9tr, List.Mem.head _, rfl⟩

/-- C10: a table row with exactly one cell whose text starts with the
five-generations marker raises (row[1] is accessed unconditionally in
that branch); it is not silently dropped. -/
theorem c10_one_cell_gen5_raises :
    (∀ (E : PyEnv) (tl : PyStr),
        classifyRow E [('5' :: '代' :: '内' :: tl : PyStr)] = .raised) ∧
      normalize_blood_table_text asciiEnv c10tbl = .raised := by
  constructor
  · intro E tl
    simp +decide [classifyRow, startsWithAny, parentKeywords, gen5Keyword, List.isPrefixOf]
  · decide
